import Mathlib

/-!
Verification of the `lab` repository's core (src/internal/gitlab.go): the
group/subgroup/project discovery crawler and the job trace streamer.

The Go code is shallowly embedded: every loop becomes a structurally
recursive Lean function (network-driven loops take an explicit fuel bound,
since the Go loops run until the server's page chain or the job's status
ends them), blocking network calls become explicit server/response
parameters, and goroutine fan-out with a mutex-protected accumulator is
serialized in spawn order (every claim we settle about it is invariant
under the interleaving of the per-worker block appends).  Strings are
modelled as `List Char` where Go iterates bytewise over ASCII data.
-/

namespace Lab

/-- `listStartsWith p s`: `s` begins with the pattern `p` (Go's
`strings.HasPrefix`, on character lists). -/
def listStartsWith : List Char → List Char → Bool
  | [], _ => true
  | _ :: _, [] => false
  | p :: ps, x :: xs => p == x && listStartsWith ps xs

/-- Go's `strings.Split(s, sep)` for a one-character separator: splits
around every occurrence of `c`; the empty string yields `[[]]`, and a
trailing separator yields a trailing empty element. -/
def splitOnChar (c : Char) : List Char → List (List Char)
  | [] => [[]]
  | x :: xs =>
    if x = c then [] :: splitOnChar c xs
    else (x :: (splitOnChar c xs).headI) :: (splitOnChar c xs).tail

/-- A trace blob in the standard format: each line followed by a newline
(the cumulative log always ends with `"\n"`). -/
def mkBlob (lines : List (List Char)) : List Char :=
  (lines.map (fun l => l ++ ['\n'])).flatten

theorem splitOnChar_ne_nil (c : Char) (l : List Char) : splitOnChar c l ≠ [] := by
  cases l with
  | nil => simp [splitOnChar]
  | cons x xs =>
    simp only [splitOnChar]
    split <;> simp

theorem splitOnChar_append_cons (c : Char) (l rest : List Char) (h : c ∉ l) :
    splitOnChar c (l ++ c :: rest) = l :: splitOnChar c rest := by
  induction l with
  | nil => simp [splitOnChar]
  | cons x xs ih =>
    have hx : x ≠ c := fun hxc => h (hxc ▸ List.mem_cons_self x xs)
    have hxs : c ∉ xs := fun hm => h (List.mem_cons_of_mem x hm)
    simp only [List.cons_append, splitOnChar, if_neg hx, List.append_eq]
    rw [ih hxs]
    simp

theorem splitOnChar_of_not_mem (c : Char) (l : List Char) (h : c ∉ l) :
    splitOnChar c l = [l] := by
  induction l with
  | nil => simp [splitOnChar]
  | cons x xs ih =>
    have hx : x ≠ c := fun hxc => h (hxc ▸ List.mem_cons_self x xs)
    have hxs : c ∉ xs := fun hm => h (List.mem_cons_of_mem x hm)
    simp [splitOnChar, if_neg hx, ih hxs]

/-- Splitting a well-formed blob recovers the lines plus the empty element
after the final newline (this is exactly what `strings.Split` hands the
streamer). -/
theorem splitOnChar_mkBlob (lines : List (List Char))
    (h : ∀ l ∈ lines, '\n' ∉ l) :
    splitOnChar '\n' (mkBlob lines) = lines ++ [[]] := by
  induction lines with
  | nil => simp [mkBlob, splitOnChar]
  | cons l ls ih =>
    have hl : '\n' ∉ l := h l (List.mem_cons_self l ls)
    have hls : ∀ x ∈ ls, '\n' ∉ x := fun x hx => h x (List.mem_cons_of_mem l hx)
    have : mkBlob (l :: ls) = l ++ '\n' :: mkBlob ls := by
      simp [mkBlob]
    rw [this, splitOnChar_append_cons _ _ _ hl, ih hls]
    simp

/-! ## Pagination (gitlab.go lines 129-187)

`getGroupProjects` and `getAllSubgroups` contain the same inlined
pagination loop: call the list endpoint at the current page, on error
`utils.PrintErr` and `break` (keeping what was accumulated), otherwise
append the page's items, stop when `resp.NextPage == 0`, else continue at
`resp.NextPage`.  `fetchPages` is that loop, with the endpoint abstracted
as `fetch : page → PageResult` and explicit fuel (the Go loop runs until
the server's page chain ends; `fuel` bounds the number of iterations the
embedding unrolls).  The `Bool` records whether an error was reported. -/

/-- One page response from a list endpoint: items plus the `NextPage`
cursor (`0` = no further pages), or a failed call. -/
inductive PageResult (α : Type) where
  | ok (items : List α) (nextPage : Nat)
  | err
deriving DecidableEq

/-- `perPage = 100` (gitlab.go line 18), the fixed page size passed to
every list call. -/
def perPage : Nat := 100

/-- The pagination loop shared by `getGroupProjects` and
`getAllSubgroups`: accumulate page items in call order from `page`
until `nextPage == 0` or an error (which is reported: second component
`true`). -/
def fetchPages {α : Type} (fetch : Nat → PageResult α) : Nat → Nat → List α × Bool
  | 0, _ => ([], false)
  | fuel + 1, page =>
    match fetch page with
    | PageResult.err => ([], true)
    | PageResult.ok items next =>
      if next = 0 then (items, false)
      else
        let rest := fetchPages fetch fuel next
        (items ++ rest.1, rest.2)

/-- `Serves fetch p pages errored`: starting at page `p`, the server hands
out exactly the page-item lists `pages` along its `NextPage` chain; the
chain ends either with a `nextPage = 0` sentinel (`errored = false`) or
with a failing call (`errored = true`). -/
inductive Serves {α : Type} (fetch : Nat → PageResult α) : Nat → List (List α) → Bool → Prop where
  | done {p : Nat} {items : List α} (h : fetch p = PageResult.ok items 0) :
      Serves fetch p [items] false
  | fail {p : Nat} (h : fetch p = PageResult.err) :
      Serves fetch p [] true
  | step {p q : Nat} {items : List α} {rest : List (List α)} {e : Bool}
      (h : fetch p = PageResult.ok items q) (hq : q ≠ 0)
      (hrest : Serves fetch q rest e) :
      Serves fetch p (items :: rest) e

/-- With enough fuel, the pagination loop returns exactly the
concatenation of the pages the server serves, in fetch order, and reports
whether the chain ended in an error. -/
theorem fetchPages_eq_of_serves {α : Type} {fetch : Nat → PageResult α}
    {p : Nat} {pages : List (List α)} {e : Bool}
    (h : Serves fetch p pages e) :
    ∀ fuel, pages.length + 1 ≤ fuel → fetchPages fetch fuel p = (pages.flatten, e) := by
  induction h with
  | done h =>
    intro fuel hf
    match fuel, hf with
    | n + 1, _ => simp [fetchPages, h]
  | fail h =>
    intro fuel hf
    match fuel, hf with
    | n + 1, _ => simp [fetchPages, h]
  | @step p q items rest e h hq hrest ih =>
    intro fuel hf
    match fuel, hf with
    | n + 1, hf =>
      have hn : rest.length + 1 ≤ n := by
        simpa [Nat.succ_le_succ_iff] using hf
      simp [fetchPages, h, hq, ih n hn]

/-! ## The crawler (gitlab.go lines 36-127) -/

/-- A group selector as passed around by the Go code (`any`-typed:
either a numeric group ID or a path such as `"linux"`). -/
inductive GroupRef where
  | num (id : Int)
  | path (s : String)
deriving DecidableEq

/-- The fields of `gitlab.Project` the crawler reads. -/
structure Project where
  pathWithNamespace : String
deriving DecidableEq

/-- The fields of `gitlab.Group` the subgroup resolver reads. -/
structure Subgroup where
  id : Int
deriving DecidableEq

/-- The remote endpoints consumed by the crawler, as response functions
`(group, perPage, page) ↦ result`. -/
structure Client where
  listGroupProjects : GroupRef → Nat → Nat → PageResult Project
  listDescendantGroups : GroupRef → Nat → Nat → PageResult Subgroup

/-- `getGroupProjects` (gitlab.go 130-156): paginate one group's direct
projects from page 1 with page size `perPage`, extracting
`PathWithNamespace` from each project; on a page error report it and stop
with what was accumulated. -/
def getGroupProjects (client : Client) (fuel : Nat) (groupID : GroupRef) : List String :=
  ((fetchPages (fun page => client.listGroupProjects groupID perPage page) fuel 1).1).map
    Project.pathWithNamespace

/-- `getAllSubgroups` (gitlab.go 159-187): paginate the flattened
descendant-group listing of one group from page 1, collecting each
subgroup's numeric ID; on a page error report it and stop with what was
accumulated. -/
def getAllSubgroups (client : Client) (fuel : Nat) (groupID : GroupRef) : List GroupRef :=
  ((fetchPages (fun page => client.listDescendantGroups groupID perPage page) fuel 1).1).map
    (fun sg => GroupRef.num sg.id)

/-- The first loop of `getAllGroupProjects` (gitlab.go 99-104): for each
root group append the root itself and then its transitive descendants to
the flat `allGroups` accumulator (a list; nothing is deduplicated). -/
def allGroupsOf (client : Client) (fuel : Nat) (groups : List GroupRef) : List GroupRef :=
  groups.foldl (fun acc g => acc ++ [g] ++ getAllSubgroups client fuel g) []

/-- `getAllGroupProjects` (gitlab.go 98-127): build `allGroups`, then one
worker per entry fetches that group's direct projects and appends its
whole result to the shared accumulator under the mutex; the caller waits
for all workers.  The embedding serializes the workers in spawn order:
each worker contributes its complete block atomically, so the multiset of
results (and hence every count or membership fact below) is the same for
every interleaving. -/
def getAllGroupProjects (client : Client) (fuel : Nat) (groups : List GroupRef) : List String :=
  (allGroupsOf client fuel groups).foldl
    (fun acc g => acc ++ getGroupProjects client fuel g) []

/-- `Projects` (gitlab.go 37-41): the `syncAll` flag is accepted but the
crawl is always over the hardcoded roots `"linux"` and `"kubernetes"`. -/
def Projects (client : Client) (fuel : Nat) (syncAll : Bool) : List String :=
  getAllGroupProjects client fuel [GroupRef.path "linux", GroupRef.path "kubernetes"]

/-- Folding block appends equals flat concatenation. -/
theorem foldl_append_eq_flatten {α β : Type} (f : α → List β) (l : List α) (init : List β) :
    l.foldl (fun acc g => acc ++ f g) init = init ++ (l.map f).flatten := by
  induction l generalizing init with
  | nil => simp
  | cons x xs ih => simp [List.foldl_cons, ih, List.append_assoc]

theorem allGroupsOf_eq (client : Client) (fuel : Nat) (groups : List GroupRef) :
    allGroupsOf client fuel groups =
      (groups.map (fun g => g :: getAllSubgroups client fuel g)).flatten := by
  have h := foldl_append_eq_flatten
    (fun g => g :: getAllSubgroups client fuel g) groups []
  simpa [allGroupsOf, List.append_assoc] using h

theorem getAllGroupProjects_eq (client : Client) (fuel : Nat) (groups : List GroupRef) :
    getAllGroupProjects client fuel groups =
      ((allGroupsOf client fuel groups).map (getGroupProjects client fuel)).flatten := by
  simpa [getAllGroupProjects] using
    foldl_append_eq_flatten (getGroupProjects client fuel) (allGroupsOf client fuel groups) []

/-! ## TransferGitURLToProject (gitlab.go 192-202) -/

/-- Go slice `s[i:j]`: defined only when `i ≤ j ≤ len(s)`, otherwise the
program panics (embedded as `none`). -/
def goSlice (s : List Char) (i j : Nat) : Option (List Char) :=
  if i ≤ j ∧ j ≤ s.length then some ((s.take j).drop i) else none

/-- `TransferGitURLToProject` (gitlab.go 192-202): strip
`Config.BaseURL` and the trailing `".git"` from an `https://` URL, or for
a `git@` URL drop the trailing `".git"` and take the element after the
first `':'` of the colon split — `strings.Split(url, ":")[1]`, an indexing
that panics (`none`) when the split has fewer than two elements.
`baseURLLen` is the length of the configured `Config.BaseURL`. -/
def TransferGitURLToProject (baseURLLen : Nat) (gitURL : List Char) : Option (List Char) :=
  let url : List Char := []
  let afterHttps : Option (List Char) :=
    if listStartsWith "https://".toList gitURL then
      goSlice gitURL baseURLLen (gitURL.length - 4)
    else some url
  match afterHttps with
  | none => none
  | some url =>
    if listStartsWith "git@".toList gitURL then
      match goSlice gitURL 0 (gitURL.length - 4) with
      | none => none
      | some u => (splitOnChar ':' u).get? 1
    else some url

/-! ## The trace control-sequence regex (gitlab.go 230-232)

`var re = regexp.MustCompile` of: ESC `[0m`, then `.*`, then `[0K`; the
streamer prints `re.ReplaceAllString(prefix+line, "")`.  Go's regexp has
leftmost-first (Perl) semantics with a greedy `.*`, so on a single line
(no `'\n'`, which `.` cannot cross — the streamer only feeds it
newline-free split lines) the unique match, if any, runs from the first
position where ESC`[0m` occurs and some `[0K` starts at least 4
characters later, to the end of the last such `[0K`; after replacing it
no `[0K` remains, so there is never a second match.  `replaceArtifact`
computes exactly that replacement. -/

/-- The pattern ESC `[0m` (`\x1b\[0m`). -/
def esc0m : List Char := ['\x1b', '[', '0', 'm']

/-- The pattern `[0K` (`\[0K`). -/
def clr0K : List Char := ['[', '0', 'K']

/-- All start indices of occurrences of `pat` in `l`, ascending. -/
def matchStarts (pat l : List Char) : List Nat :=
  (List.range (l.length + 1)).filter (fun i => listStartsWith pat (l.drop i))

/-- `re.ReplaceAllString(l, "")` for the artifact regex. -/
def replaceArtifact (l : List Char) : List Char :=
  let qs := matchStarts clr0K l
  match (matchStarts esc0m l).find? (fun p => qs.any (fun q => p + 4 ≤ q)) with
  | none => l
  | some p =>
    match (qs.filter (fun q => p + 4 ≤ q)).getLast? with
    | none => l
    | some q => l.take p ++ l.drop (q + 3)

/-- The raw artifact as it appears in a trace line: an escape-reset
sequence immediately followed by an escape-clear-line sequence,
`"\x1b[0m\x1b[0K"`. -/
def artifact : List Char := esc0m ++ '\x1b' :: clr0K

/-! ## The job trace streamer (gitlab.go 204-261)

`DoTrace` loops on a ticker: fetch the full trace blob, split on `'\n'`,
on the very first tick window to `lines[max(len-tailLine,0) : len-1]`,
print `re.ReplaceAllString(prefix+line, "")` for each line at index ≥
`offset`, set `offset` to the split length of this tick, return if the
job's current `Status` field is not created/pending/running, otherwise
re-fetch the job.  The network is a list of per-tick responses (blob
fetched, then status returned by `GetJob`); the list's length is the fuel
of the embedding (the Go ticker never stops by itself). -/

/-- `IsRunning` (gitlab.go 223-228). -/
def IsRunning (status : String) : Bool :=
  if status == "created" || status == "pending" || status == "running" then true
  else false

/-- The observable state of one `DoTrace` invocation: the `offset` and
`firstTail` locals, plus the lines printed so far and counts of the
network calls made (`tracePolls` = `GetTraceFile` calls, `jobPolls` =
`GetJob` calls, `errorsReported` = errors handed to `utils.Check`). -/
structure TraceState where
  offset : Nat
  firstTail : Bool
  printed : List (List Char)
  tracePolls : Nat
  jobPolls : Nat
  errorsReported : Nat
deriving DecidableEq

/-- State at entry of `DoTrace`: `var offset int64; firstTail := true`. -/
def initTraceState : TraceState :=
  { offset := 0, firstTail := true, printed := [], tracePolls := 0,
    jobPolls := 0, errorsReported := 0 }

/-- The server's responses for one tick of the loop. -/
structure TraceTick where
  blob : List Char
  statusAfter : String
deriving DecidableEq

/-- The body of one tick up to the status check (gitlab.go 239-253):
fetch and split the blob, window it on the first tick, print the lines
from `offset` on (each prefixed and artifact-stripped), and record the
split length as the new offset. -/
def doTraceTick (pfx : List Char) (tailLine : Nat) (st : TraceState) (blob : List Char) :
    TraceState :=
  let lines0 := splitOnChar '\n' blob
  let length := lines0.length
  let lines :=
    if st.firstTail then
      let beg := length - tailLine
      (lines0.drop beg).take (length - 1 - beg)
    else lines0
  { offset := length
    firstTail := false
    printed := st.printed ++ (lines.drop st.offset).map (fun l => replaceArtifact (pfx ++ l))
    tracePolls := st.tracePolls + 1
    jobPolls := st.jobPolls
    errorsReported := st.errorsReported }

/-- `DoTrace` (gitlab.go 234-259).  `status` is the `Status` field of the
`job` argument at the top of the iteration; after printing, the loop
returns if `!IsRunning(job.Status)`, else re-fetches the job (whose new
status is the tick's `statusAfter`).  Result: final state, and whether
the loop returned (`true`) or the supplied response list ran out while
the loop would keep polling (`false`). -/
def DoTrace (pfx : List Char) (tailLine : Nat) :
    String → List TraceTick → TraceState → TraceState × Bool
  | _, [], st => (st, false)
  | status, t :: rest, st =>
    let st1 := doTraceTick pfx tailLine st t.blob
    if IsRunning status then
      DoTrace pfx tailLine t.statusAfter rest
        { st1 with jobPolls := st1.jobPolls + 1 }
    else (st1, true)

/-- Straight-line run of tick bodies, for stating what a finished loop
printed. -/
def runTicks (pfx : List Char) (tailLine : Nat) (blobs : List (List Char))
    (st : TraceState) : TraceState :=
  blobs.foldl (fun s b => doTraceTick pfx tailLine s b) st

/-- Per-tick responses when fetches may fail: `none` is a failed call. -/
structure TraceTickF where
  traceResult : Option (List Char)
  statusResult : Option String
deriving DecidableEq

/-- Modelled from the spec: `utils.Check` (package `utils`, not under
`src/`) handles a transient fetch error inside the polling loop — the
spec's §7 taxonomy says such an error is "reported (printed) and the
affected pagination loop or polling tick is abandoned early; sibling
workers/jobs are unaffected. No automatic retry."  `DoTraceF` is
`DoTrace` with that error behaviour made explicit: a failed
`GetTraceFile` abandons the whole tick (nothing printed, offset and
status unchanged), a failed `GetJob` abandons the rest of the tick
(status stays as it was); both bump `errorsReported`. -/
def DoTraceF (pfx : List Char) (tailLine : Nat) :
    String → List TraceTickF → TraceState → TraceState × Bool
  | _, [], st => (st, false)
  | status, t :: rest, st =>
    match t.traceResult with
    | none =>
      DoTraceF pfx tailLine status rest
        { st with errorsReported := st.errorsReported + 1 }
    | some blob =>
      let st1 := doTraceTick pfx tailLine st blob
      if IsRunning status then
        match t.statusResult with
        | none =>
          DoTraceF pfx tailLine status rest
            { st1 with errorsReported := st1.errorsReported + 1 }
        | some status1 =>
          DoTraceF pfx tailLine status1 rest
            { st1 with jobPolls := st1.jobPolls + 1 }
      else (st1, true)

/-- The fields of `gitlab.Job` the streamer orchestration reads. -/
structure Job where
  id : Int
  name : String
  status : String
deriving DecidableEq

/-- `TraceRunningJobs` (gitlab.go 204-220): `allDone` is `true` iff no
job is running; one `DoTrace` goroutine is spawned for each running job
and the caller waits for all of them.  Each loop owns its state; the
embedding lists the loops' outcomes in job order (`streams` supplies each
job's network responses, `pfxOf` models `utils.RandomColor`'s opaque
colored `"[name] "` prefix — not under `src/`, per the spec a
deterministic per-job label). -/
def TraceRunningJobs (tailLine : Nat) (jobs : List Job) (pfxOf : Job → List Char)
    (streams : Job → List TraceTickF) : Bool × List (TraceState × Bool) :=
  ((jobs.all fun j => !IsRunning j.status),
    (jobs.filter fun j => IsRunning j.status).map fun j =>
      DoTraceF (pfxOf j) tailLine j.status (streams j) initTraceState)

/-! ## General helper lemmas -/

theorem listStartsWith_iff (p s : List Char) :
    listStartsWith p s = true ↔ ∃ t, s = p ++ t := by
  induction p generalizing s with
  | nil => simp [listStartsWith]
  | cons c cs ih =>
    cases s with
    | nil => simp [listStartsWith]
    | cons x xs =>
      simp only [listStartsWith, Bool.and_eq_true, beq_iff_eq, ih, List.cons_append,
        List.cons.injEq]
      constructor
      · rintro ⟨rfl, t, rfl⟩
        exact ⟨t, rfl, rfl⟩
      · rintro ⟨t, rfl, rfl⟩
        exact ⟨rfl, t, rfl⟩

/-! ## Claim theorems -/

/-- **C9** (confirmed): `Projects(syncAll)` ignores the `syncAll` flag —
both flag values produce the same result — and the crawl is always over
exactly the hardcoded root groups `"linux"` and `"kubernetes"`. -/
theorem Projects_ignores_syncAll (client : Client) (fuel : Nat) (a b : Bool) :
    Projects client fuel a = Projects client fuel b ∧
    Projects client fuel a =
      getAllGroupProjects client fuel [GroupRef.path "linux", GroupRef.path "kubernetes"] :=
  ⟨rfl, rfl⟩

/-- **C4** (amended): the Crawler builds `allGroups` as a flat *list* —
each root followed by its transitive descendants, in order, with no
deduplication — spawns one worker per list entry (a group occurring
several times is queried once per occurrence), and the returned project
list is the per-entry group results concatenated, so its total length is
the sum, over the entries of the `allGroups` list counted with
multiplicity, of each group's direct project count; project paths are
never globally deduplicated. -/
theorem getAllGroupProjects_count (client : Client) (fuel : Nat) (roots : List GroupRef) :
    (getAllGroupProjects client fuel roots).length =
      ((allGroupsOf client fuel roots).map
        (fun g => (getGroupProjects client fuel g).length)).sum ∧
    allGroupsOf client fuel roots =
      (roots.map (fun r => r :: getAllSubgroups client fuel r)).flatten ∧
    getAllGroupProjects client fuel roots =
      ((allGroupsOf client fuel roots).map (getGroupProjects client fuel)).flatten := by
  refine ⟨?_, allGroupsOf_eq client fuel roots, getAllGroupProjects_eq client fuel roots⟩
  rw [getAllGroupProjects_eq]
  simp [List.length_flatten, List.map_map, Function.comp_def]

/-- A server on which every group reports one direct project and no
subgroups. -/
def dupRootsClient : Client :=
  { listGroupProjects := fun _ _ _ => PageResult.ok [⟨"g/p"⟩] 0
    listDescendantGroups := fun _ _ _ => PageResult.ok [] 0 }

/-- **C4** (counterexample): with the duplicated root list `["g", "g"]`
the group `"g"` is queried twice, and the crawl returns 2 projects while
the sum of direct project counts over `allGroups` *as a set* is 1 — so
`allGroups` is not a set and a `GroupID` in it is not queried exactly
once. -/
theorem getAllGroupProjects_dup_roots :
    (getAllGroupProjects dupRootsClient 1 [GroupRef.path "g", GroupRef.path "g"]).length = 2 ∧
    ((allGroupsOf dupRootsClient 1 [GroupRef.path "g", GroupRef.path "g"]).dedup.map
      (fun g => (getGroupProjects dupRootsClient 1 g).length)).sum = 1 := by
  decide

/-- **C6** (confirmed): when the server serves a finite page chain from
page 1 (page size `perPage = 100`) ending in the `NextPage = 0`
sentinel, the paginated fetcher terminates and returns exactly the
concatenation of the per-page item lists in fetch order. -/
theorem getGroupProjects_eq_of_chain (client : Client) (g : GroupRef)
    (pages : List (List Project)) (fuel : Nat)
    (h : Serves (fun page => client.listGroupProjects g perPage page) 1 pages false)
    (hfuel : pages.length + 1 ≤ fuel) :
    getGroupProjects client fuel g =
      (pages.map (List.map Project.pathWithNamespace)).flatten := by
  simp [getGroupProjects, fetchPages_eq_of_serves h fuel hfuel]

/-- A server with a three-page project chain of 100, 100 and 7 items. -/
def threePageClient : Client :=
  { listGroupProjects := fun _ _ page =>
      if page = 1 then PageResult.ok (List.replicate 100 ⟨"x"⟩) 2
      else if page = 2 then PageResult.ok (List.replicate 100 ⟨"y"⟩) 3
      else if page = 3 then PageResult.ok (List.replicate 7 ⟨"z"⟩) 0
      else PageResult.err
    listDescendantGroups := fun _ _ _ => PageResult.ok [] 0 }

/-- Witness for **C6**: pages of 100, 100 and 7 items yield the ordered
concatenation — 207 items in total. -/
theorem getGroupProjects_eq_of_chain_witness :
    getGroupProjects threePageClient 4 (GroupRef.path "g") =
      ([List.replicate 100 (⟨"x"⟩ : Project), List.replicate 100 ⟨"y"⟩,
        List.replicate 7 ⟨"z"⟩].map (List.map Project.pathWithNamespace)).flatten ∧
    (getGroupProjects threePageClient 4 (GroupRef.path "g")).length = 207 := by
  have h : Serves (fun page => threePageClient.listGroupProjects (GroupRef.path "g") perPage page)
      1 [List.replicate 100 ⟨"x"⟩, List.replicate 100 ⟨"y"⟩, List.replicate 7 ⟨"z"⟩] false :=
    Serves.step rfl (by decide) (Serves.step rfl (by decide) (Serves.done rfl))
  have he := getGroupProjects_eq_of_chain threePageClient (GroupRef.path "g") _ 4 h (by decide)
  refine ⟨he, ?_⟩
  rw [he]
  simp only [List.map_cons, List.map_nil, List.map_replicate, List.flatten_cons,
    List.flatten_nil, List.length_append, List.length_replicate, List.length_nil]

/-- **C5** (confirmed): a page error inside one group's project listing
or one group's descendant-group resolution stops that pagination loop
with the items accumulated so far (the served prefix of the chain), and
the crawl still returns every `allGroups` entry's own (possibly partial)
result concatenated — one group's failure neither retries nor removes
sibling groups' projects nor aborts the call. -/
theorem crawl_partial_failure (client : Client) (fuel : Nat) (roots : List GroupRef)
    (gP gD : GroupRef) (pagesP : List (List Project)) (pagesD : List (List Subgroup))
    (hP : Serves (fun page => client.listGroupProjects gP perPage page) 1 pagesP true)
    (hD : Serves (fun page => client.listDescendantGroups gD perPage page) 1 pagesD true)
    (hfP : pagesP.length + 1 ≤ fuel) (hfD : pagesD.length + 1 ≤ fuel) :
    getGroupProjects client fuel gP = pagesP.flatten.map Project.pathWithNamespace ∧
    getAllSubgroups client fuel gD = pagesD.flatten.map (fun sg => GroupRef.num sg.id) ∧
    getAllGroupProjects client fuel roots =
      ((allGroupsOf client fuel roots).map (getGroupProjects client fuel)).flatten := by
  refine ⟨?_, ?_, getAllGroupProjects_eq client fuel roots⟩
  · simp [getGroupProjects, fetchPages_eq_of_serves hP fuel hfP]
  · simp [getAllSubgroups, fetchPages_eq_of_serves hD fuel hfD]

/-- The spec's §8 example server: root `G1` has subgroups `G2` (2
projects, id 2) and `G3` (project listing fails, id 3); `G1` itself has
no direct projects; descendant listings of non-root groups fail. -/
def partialFailClient : Client :=
  { listGroupProjects := fun g _ _ =>
      match g with
      | GroupRef.path "g1" => PageResult.ok [] 0
      | GroupRef.num 2 => PageResult.ok [⟨"a"⟩, ⟨"b"⟩] 0
      | _ => PageResult.err
    listDescendantGroups := fun g _ _ =>
      match g with
      | GroupRef.path "g1" => PageResult.ok [⟨2⟩, ⟨3⟩] 0
      | _ => PageResult.err }

/-- Witness for **C5**: on the spec's example — roots `[G1]`, `G2` ok
with 2 projects, `G3` errors — the crawl returns exactly `G2`'s 2
projects. -/
theorem crawl_partial_failure_witness :
    getGroupProjects partialFailClient 2 (GroupRef.num 3) = [] ∧
    getAllSubgroups partialFailClient 2 (GroupRef.num 3) = [] ∧
    getAllGroupProjects partialFailClient 2 [GroupRef.path "g1"] =
      ((allGroupsOf partialFailClient 2 [GroupRef.path "g1"]).map
        (getGroupProjects partialFailClient 2)).flatten ∧
    getAllGroupProjects partialFailClient 2 [GroupRef.path "g1"] = ["a", "b"] := by
  have h := crawl_partial_failure partialFailClient 2 [GroupRef.path "g1"]
    (GroupRef.num 3) (GroupRef.num 3) [] []
    (Serves.fail rfl) (Serves.fail rfl) (by decide) (by decide)
  exact ⟨by simpa using h.1, by simpa using h.2.1, h.2.2, by decide⟩

/-- **C10** (confirmed): for every URL that starts with `"git@"` but
contains no `':'`, the colon split of the trimmed URL has a single
element, so the Go indexing `strings.Split(url, ":")[1]` is out of
bounds (the embedding's indexing error branch, `none`, is reached):
`TransferGitURLToProject` is not total on `"git@"`-prefixed inputs
without a colon. -/
theorem TransferGitURLToProject_no_colon (baseURLLen : Nat) (s : List Char)
    (hgit : listStartsWith "git@".toList s = true) (hcolon : ':' ∉ s) :
    TransferGitURLToProject baseURLLen s = none := by
  obtain ⟨t, rfl⟩ := (listStartsWith_iff _ _).mp hgit
  have hhttps : listStartsWith "https://".toList ("git@".toList ++ t) = false := by
    simp [listStartsWith]
  have hlen : 4 ≤ ("git@".toList ++ t).length := by
    simp
  have hslice : goSlice ("git@".toList ++ t) 0 (("git@".toList ++ t).length - 4) =
      some (("git@".toList ++ t).take (("git@".toList ++ t).length - 4)) := by
    unfold goSlice
    rw [if_pos (by omega)]
    simp
  have hnc : ':' ∉ ("git@".toList ++ t).take (("git@".toList ++ t).length - 4) :=
    fun hm => hcolon (List.take_subset _ _ hm)
  simp only [TransferGitURLToProject, hhttps, Bool.false_eq_true, if_false, hgit, if_true,
    hslice, splitOnChar_of_not_mem ':' _ hnc]
  rfl

/-- Witness for **C10**: the concrete URL `"git@hostpath.git"`. -/
theorem TransferGitURLToProject_no_colon_witness :
    listStartsWith "git@".toList "git@hostpath.git".toList = true ∧
    ':' ∉ "git@hostpath.git".toList ∧
    TransferGitURLToProject 18 "git@hostpath.git".toList = none :=
  ⟨by decide, by decide,
    TransferGitURLToProject_no_colon 18 "git@hostpath.git".toList (by decide) (by decide)⟩

/-- **C7** (confirmed, against the spec-modelled `utils.Check`): a failed
trace fetch is reported and abandons exactly its own tick (the loop goes
on with state otherwise unchanged); the multi-job invocation's `allDone`
answer and the outcome of every sibling job are unchanged when one job's
stream is replaced arbitrarily (e.g. by one with fetch errors); and the
invocation always completes with one outcome per running job. -/
theorem trace_error_isolated (pfx : List Char) (tailLine : Nat) (status : String)
    (t : TraceTickF) (rest : List TraceTickF) (st : TraceState)
    (jobs : List Job) (pfxOf : Job → List Char) (streams streams' : Job → List TraceTickF)
    (j0 : Job)
    (herr : t.traceResult = none)
    (hagree : ∀ j ∈ jobs, j ≠ j0 → streams j = streams' j) :
    DoTraceF pfx tailLine status (t :: rest) st =
      DoTraceF pfx tailLine status rest
        { st with errorsReported := st.errorsReported + 1 } ∧
    (TraceRunningJobs tailLine jobs pfxOf streams).1 =
      (TraceRunningJobs tailLine jobs pfxOf streams').1 ∧
    (TraceRunningJobs tailLine jobs pfxOf streams).2.length =
      (jobs.filter fun j => IsRunning j.status).length ∧
    ∀ j ∈ jobs, j ≠ j0 →
      DoTraceF (pfxOf j) tailLine j.status (streams j) initTraceState =
        DoTraceF (pfxOf j) tailLine j.status (streams' j) initTraceState := by
  refine ⟨?_, rfl, ?_, ?_⟩
  · simp only [DoTraceF, herr]
  · simp [TraceRunningJobs]
  · intro j hj hne
    rw [hagree j hj hne]

/-- Two jobs for the **C7** witness; `jobA`'s stream errors on its first
trace fetch, `jobB`'s stream succeeds. -/
def jobA : Job := { id := 1, name := "a", status := "running" }

def jobB : Job := { id := 2, name := "b", status := "running" }

def streamsErr (j : Job) : List TraceTickF :=
  if j = jobA then [{ traceResult := none, statusResult := none }]
  else [{ traceResult := some (mkBlob [['x']]), statusResult := some "success" }]

def streamsOk (j : Job) : List TraceTickF :=
  if j = jobA then [{ traceResult := some (mkBlob [['y']]), statusResult := some "success" }]
  else [{ traceResult := some (mkBlob [['x']]), statusResult := some "success" }]

/-- Witness for **C7**: with jobs `[jobA, jobB]` and `jobA`'s first trace
fetch failing, the erroring tick only bumps the error count, and
`jobB`'s streaming outcome and the invocation's `allDone` answer are the
same as with `jobA`'s error-free stream. -/
theorem trace_error_isolated_witness :
    ({ traceResult := none, statusResult := none } : TraceTickF).traceResult = none ∧
    (∀ j ∈ [jobA, jobB], j ≠ jobA → streamsErr j = streamsOk j) ∧
    (DoTraceF [] 20 "running" [{ traceResult := none, statusResult := none }]
        initTraceState =
      DoTraceF [] 20 "running" []
        { initTraceState with errorsReported := initTraceState.errorsReported + 1 } ∧
    (TraceRunningJobs 20 [jobA, jobB] (fun _ => []) streamsErr).1 =
      (TraceRunningJobs 20 [jobA, jobB] (fun _ => []) streamsOk).1 ∧
    (TraceRunningJobs 20 [jobA, jobB] (fun _ => []) streamsErr).2.length =
      ([jobA, jobB].filter fun j => IsRunning j.status).length ∧
    ∀ j ∈ [jobA, jobB], j ≠ jobA →
      DoTraceF ((fun (_ : Job) => ([] : List Char)) j) 20 j.status (streamsErr j)
          initTraceState =
        DoTraceF ((fun (_ : Job) => ([] : List Char)) j) 20 j.status (streamsOk j)
          initTraceState) :=
  ⟨rfl, by decide,
    trace_error_isolated [] 20 "running" { traceResult := none, statusResult := none } []
      initTraceState [jobA, jobB] (fun _ => []) streamsErr streamsOk jobA rfl (by decide)⟩

/-! ## Trace-loop lemmas -/

/-- The tick body never reads or writes `jobPolls`. -/
theorem doTraceTick_jobPolls (pfx : List Char) (tailLine : Nat) (st : TraceState)
    (b : List Char) (j : Nat) :
    doTraceTick pfx tailLine { st with jobPolls := j } b =
      { doTraceTick pfx tailLine st b with jobPolls := j } := rfl

theorem runTicks_jobPolls (pfx : List Char) (tailLine : Nat) (blobs : List (List Char))
    (st : TraceState) (j : Nat) :
    runTicks pfx tailLine blobs { st with jobPolls := j } =
      { runTicks pfx tailLine blobs st with jobPolls := j } := by
  induction blobs generalizing st with
  | nil => rfl
  | cons b bs ih =>
    simp only [runTicks, List.foldl_cons] at *
    rw [doTraceTick_jobPolls, ih]

theorem runTicks_tracePolls (pfx : List Char) (tailLine : Nat) (blobs : List (List Char))
    (st : TraceState) :
    (runTicks pfx tailLine blobs st).tracePolls = st.tracePolls + blobs.length := by
  induction blobs generalizing st with
  | nil => rfl
  | cons b bs ih =>
    simp only [runTicks, List.foldl_cons] at *
    rw [ih]
    simp [doTraceTick]
    omega

/-- The shape of a finished `DoTrace` run: while the checked status (the
initial one, then each tick's re-fetched one) is running the loop keeps
ticking; the first tick whose *check* sees a terminal status is the tick
*after* the one whose `GetJob` returned it, and the loop stops right
after that tick's output, having job-polled once per continuing tick. -/
theorem doTraceTick_jobPolls_eq (pfx : List Char) (tailLine : Nat) (st : TraceState)
    (b : List Char) : (doTraceTick pfx tailLine st b).jobPolls = st.jobPolls := rfl

theorem runTicks_cons (pfx : List Char) (tailLine : Nat) (b : List Char)
    (bs : List (List Char)) (st : TraceState) :
    runTicks pfx tailLine (b :: bs) st =
      runTicks pfx tailLine bs (doTraceTick pfx tailLine st b) := rfl

theorem DoTrace_run_shape (pfx : List Char) (tailLine : Nat) (as : List TraceTick)
    (b c : TraceTick) (ds : List TraceTick) :
    ∀ (s0 : String) (st : TraceState), IsRunning s0 = true →
    (∀ a ∈ as, IsRunning a.statusAfter = true) →
    IsRunning b.statusAfter = false →
    DoTrace pfx tailLine s0 (as ++ b :: c :: ds) st =
      ({ runTicks pfx tailLine ((as ++ [b, c]).map TraceTick.blob) st with
         jobPolls := st.jobPolls + as.length + 1 }, true) := by
  induction as with
  | nil =>
    intro s0 st h0 _ hb
    simp only [List.nil_append, List.map_cons, List.map_nil, DoTrace, h0, if_true, hb,
      Bool.false_eq_true, if_false, List.length_nil]
    rw [doTraceTick_jobPolls]
    simp [runTicks, doTraceTick_jobPolls_eq]
  | cons a as ih =>
    intro s0 st h0 ha hb
    have ha' : IsRunning a.statusAfter = true := ha a (List.mem_cons_self a as)
    have has : ∀ x ∈ as, IsRunning x.statusAfter = true :=
      fun x hx => ha x (List.mem_cons_of_mem a hx)
    have step : DoTrace pfx tailLine s0 ((a :: as) ++ b :: c :: ds) st =
        DoTrace pfx tailLine a.statusAfter (as ++ b :: c :: ds)
          { doTraceTick pfx tailLine st a.blob with
            jobPolls := (doTraceTick pfx tailLine st a.blob).jobPolls + 1 } := by
      simp only [List.cons_append, DoTrace, h0, if_true, List.append_eq]
    rw [step, ih a.statusAfter _ ha' has hb, runTicks_jobPolls]
    have hrt : runTicks pfx tailLine (((a :: as) ++ [b, c]).map TraceTick.blob) st =
        runTicks pfx tailLine ((as ++ [b, c]).map TraceTick.blob)
          (doTraceTick pfx tailLine st a.blob) := rfl
    rw [hrt]
    simp only [Prod.mk.injEq, TraceState.mk.injEq, List.length_cons,
      doTraceTick_jobPolls_eq, and_true, true_and]
    omega

/-- **C3** (amended): the loop keeps polling while the status *checked*
at each tick — the initial job status on the first tick, thereafter the
status re-fetched at the end of the *previous* tick — is in
{created, pending, running}; therefore after a terminal status is first
re-fetched (at the end of tick `as.length + 1` below) the loop performs
exactly one further tick — one more trace poll, whose output is flushed —
and then stops, with no further trace or job polls. -/
theorem DoTrace_stops_after_one_more_tick (pfx : List Char) (tailLine : Nat)
    (as : List TraceTick) (b c : TraceTick) (ds : List TraceTick) (s0 : String)
    (h0 : IsRunning s0 = true)
    (ha : ∀ a ∈ as, IsRunning a.statusAfter = true)
    (hb : IsRunning b.statusAfter = false) :
    DoTrace pfx tailLine s0 (as ++ b :: c :: ds) initTraceState =
      ({ runTicks pfx tailLine ((as ++ [b, c]).map TraceTick.blob) initTraceState with
         jobPolls := as.length + 1 }, true) ∧
    (DoTrace pfx tailLine s0 (as ++ b :: c :: ds) initTraceState).1.tracePolls =
      as.length + 2 := by
  have h := DoTrace_run_shape pfx tailLine as b c ds s0 initTraceState h0 ha hb
  constructor
  · rw [h]
    simp only [initTraceState, Nat.zero_add]
  · rw [h]
    simp only [runTicks_tracePolls, List.length_map, List.length_append, List.length_cons,
      List.length_nil, initTraceState]
    omega

/-- Witness for **C3** (amended): initial status `"running"`, first
re-fetch returns `"success"`; the loop does exactly 2 trace polls and 1
job poll and stops. -/
theorem DoTrace_stops_after_one_more_tick_witness :
    IsRunning "running" = true ∧
    IsRunning (TraceTick.statusAfter ⟨mkBlob [['a']], "success"⟩) = false ∧
    DoTrace [] 20 "running"
        ([] ++ (⟨mkBlob [['a']], "success"⟩ : TraceTick) ::
          (⟨mkBlob [['a'], ['b']], "ignored"⟩ : TraceTick) :: []) initTraceState =
      ({ runTicks [] 20
           (([] ++ [(⟨mkBlob [['a']], "success"⟩ : TraceTick),
             ⟨mkBlob [['a'], ['b']], "ignored"⟩]).map TraceTick.blob) initTraceState with
         jobPolls := List.length ([] : List TraceTick) + 1 }, true) :=
  ⟨by decide, by decide,
    (DoTrace_stops_after_one_more_tick [] 20 [] ⟨mkBlob [['a']], "success"⟩
      ⟨mkBlob [['a'], ['b']], "ignored"⟩ [] "running" (by decide) (by simp) (by decide)).1⟩

/-- **C3** (counterexample to the claim as stated): initial status
`"running"`; the job re-fetched at the end of poll 1 already reports the
terminal status `"success"`, yet the loop issues a *second* trace poll
(and flushes its output) before stopping — so polls do not cease once
the job is observed with a terminal status. -/
theorem DoTrace_polls_after_terminal_observed :
    IsRunning "success" = false ∧
    (DoTrace [] 20 "running"
      [⟨mkBlob [['a']], "success"⟩, ⟨mkBlob [['a'], ['b']], "success"⟩]
      initTraceState).1.tracePolls = 2 ∧
    (DoTrace [] 20 "running"
      [⟨mkBlob [['a']], "success"⟩, ⟨mkBlob [['a'], ['b']], "success"⟩]
      initTraceState).2 = true := by
  decide

/-- **C1** (code bug, evaluated): tail 20; poll 1 serves the 5-line trace
`a…e`, poll 2 the same trace grown to 8 lines `a…h`.  The claim — and the
spec — demand that exactly the 3 new lines `f,g,h` are printed on poll 2
and every appended line exactly once, with the recorded offset equal to
the number of lines emitted.  The code prints `g`, `h` and a spurious
empty line, never prints `f`, and records offset 6 after poll 1 when only
5 lines were emitted: `offset` counts the empty element that
`strings.Split` produces after the final newline, which the first tick's
window `lines[begin:len-1]` dropped from the output. -/
theorem DoTrace_drops_first_new_line :
    (DoTrace [] 20 "running"
      [⟨mkBlob [['a'], ['b'], ['c'], ['d'], ['e']], "success"⟩,
       ⟨mkBlob [['a'], ['b'], ['c'], ['d'], ['e'], ['f'], ['g'], ['h']], "x"⟩]
      initTraceState).1.printed =
      [['a'], ['b'], ['c'], ['d'], ['e'], ['g'], ['h'], []] ∧
    ['f'] ∉ (DoTrace [] 20 "running"
      [⟨mkBlob [['a'], ['b'], ['c'], ['d'], ['e']], "success"⟩,
       ⟨mkBlob [['a'], ['b'], ['c'], ['d'], ['e'], ['f'], ['g'], ['h']], "x"⟩]
      initTraceState).1.printed ∧
    (DoTrace [] 20 "running"
      [⟨mkBlob [['a'], ['b'], ['c'], ['d'], ['e']], "success"⟩]
      initTraceState).1.offset = 6 ∧
    (DoTrace [] 20 "running"
      [⟨mkBlob [['a'], ['b'], ['c'], ['d'], ['e']], "success"⟩]
      initTraceState).1.printed.length = 5 := by
  decide

/-- What the first tick actually does on a well-formed `n`-line blob with
`1 ≤ tailLine`: the printed window is `lines[n+1-tailLine : n]` of the
`n+1`-element split — `tailLine - 1` lines when `tailLine ≤ n+1` — and
the recorded offset is the full split length `n + 1`. -/
theorem doTraceTick_first (pfx : List Char) (tailLine : Nat) (L : List (List Char))
    (st : TraceState) (hf : st.firstTail = true) (ho : st.offset = 0)
    (hnl : ∀ l ∈ L, '\n' ∉ l) (ht : 1 ≤ tailLine) :
    doTraceTick pfx tailLine st (mkBlob L) =
      { offset := L.length + 1, firstTail := false,
        printed := st.printed ++
          (L.drop (L.length + 1 - tailLine)).map (fun l => replaceArtifact (pfx ++ l)),
        tracePolls := st.tracePolls + 1, jobPolls := st.jobPolls,
        errorsReported := st.errorsReported } := by
  have hsplit := splitOnChar_mkBlob L hnl
  have hbeg : L.length + 1 - tailLine ≤ L.length := by omega
  simp only [doTraceTick, hsplit, hf, if_true, ho, List.drop_zero, List.length_append,
    List.length_cons, List.length_nil]
  rw [List.drop_append_of_le_length hbeg]
  have hlen : (L.drop (L.length + 1 - tailLine)).length = L.length + 1 - 1 -
      (L.length + 1 - tailLine) := by
    rw [List.length_drop]
    omega
  simp only [Nat.zero_add]
  rw [List.take_left' hlen]

/-- What every later tick does on a well-formed `n`-line blob: it prints
the elements of the `n+1`-element split (the `n` lines plus the trailing
empty element) from the recorded offset on, and records offset `n+1`. -/
theorem doTraceTick_next (pfx : List Char) (tailLine : Nat) (L : List (List Char))
    (st : TraceState) (hf : st.firstTail = false)
    (hnl : ∀ l ∈ L, '\n' ∉ l) :
    doTraceTick pfx tailLine st (mkBlob L) =
      { offset := L.length + 1, firstTail := false,
        printed := st.printed ++
          ((L ++ [[]]).drop st.offset).map (fun l => replaceArtifact (pfx ++ l)),
        tracePolls := st.tracePolls + 1, jobPolls := st.jobPolls,
        errorsReported := st.errorsReported } := by
  have hsplit := splitOnChar_mkBlob L hnl
  simp only [doTraceTick, hsplit, hf, Bool.false_eq_true, if_false, List.length_append,
    List.length_cons, List.length_nil]

/-- The 1000-line trace of the claim's example. -/
def c2lines : List (List Char) := List.replicate 1000 ['a']

/-- **C2** (code bug, evaluated): tailLines = 20 and a trace of 1000
existing lines on first poll.  The claim demands exactly the last 20
lines initially, and exactly the 2 appended lines `b`, `c` on the next
poll.  The code prints only the last **19** lines initially (the window
`lines[begin:len-1]` holds `tailLine` elements of the split but its last
one is the empty element after the trailing newline, which the `len-1`
bound then cuts — net 19 content lines), and on the next poll prints
only `c` plus a spurious empty line, never `b` (same offset off-by-one
as C1). -/
theorem DoTrace_initial_tail_window_prints_19 :
    (DoTrace [] 20 "running" [⟨mkBlob c2lines, "success"⟩] initTraceState).1.printed =
      List.replicate 19 ['a'] ∧
    (DoTrace [] 20 "running" [⟨mkBlob c2lines, "success"⟩]
      initTraceState).1.printed.length = 19 ∧
    (DoTrace [] 20 "running"
      [⟨mkBlob c2lines, "success"⟩, ⟨mkBlob (c2lines ++ [['b'], ['c']]), "x"⟩]
      initTraceState).1.printed = List.replicate 19 ['a'] ++ [['c'], []] ∧
    ['b'] ∉ (DoTrace [] 20 "running"
      [⟨mkBlob c2lines, "success"⟩, ⟨mkBlob (c2lines ++ [['b'], ['c']]), "x"⟩]
      initTraceState).1.printed := by
  have hnl1 : ∀ l ∈ c2lines, '\n' ∉ l := by
    intro l hl
    simp only [c2lines, List.mem_replicate] at hl
    rw [hl.2]
    decide
  have hnl2 : ∀ l ∈ c2lines ++ [['b'], ['c']], '\n' ∉ l := by
    intro l hl
    rcases List.mem_append.mp hl with h | h
    · exact hnl1 l h
    · simp only [List.mem_cons, List.not_mem_nil, or_false] at h
      rcases h with h | h <;> rw [h] <;> decide
  have t1 := doTraceTick_first [] 20 c2lines initTraceState rfl rfl hnl1 (by norm_num)
  have hlen : c2lines.length = 1000 := List.length_replicate 1000 ['a']
  have hdropa : c2lines.drop (c2lines.length + 1 - 20) = List.replicate 19 ['a'] := by
    rw [hlen]
    show (List.replicate 1000 ['a']).drop 981 = _
    rw [List.drop_replicate]
  rw [hdropa, List.map_replicate] at t1
  have hfa : replaceArtifact ([] ++ (['a'] : List Char)) = ['a'] := by decide
  rw [hfa] at t1
  rw [hlen] at t1
  have run1 : DoTrace [] 20 "running" [⟨mkBlob c2lines, "success"⟩] initTraceState =
      ({ doTraceTick [] 20 initTraceState (mkBlob c2lines) with
         jobPolls := (doTraceTick [] 20 initTraceState (mkBlob c2lines)).jobPolls + 1 },
        false) := by
    simp only [DoTrace, show IsRunning "running" = true from rfl, if_true]
  have st2 := doTraceTick_next [] 20 (c2lines ++ [['b'], ['c']])
    ({ doTraceTick [] 20 initTraceState (mkBlob c2lines) with
       jobPolls := (doTraceTick [] 20 initTraceState (mkBlob c2lines)).jobPolls + 1 })
    (by rw [t1]) hnl2
  have run2 : DoTrace [] 20 "running"
      [⟨mkBlob c2lines, "success"⟩, ⟨mkBlob (c2lines ++ [['b'], ['c']]), "x"⟩]
      initTraceState =
      (doTraceTick [] 20
        ({ doTraceTick [] 20 initTraceState (mkBlob c2lines) with
           jobPolls := (doTraceTick [] 20 initTraceState (mkBlob c2lines)).jobPolls + 1 })
        (mkBlob (c2lines ++ [['b'], ['c']])), true) := by
    simp only [DoTrace, show IsRunning "running" = true from rfl, if_true,
      show IsRunning "success" = false from rfl, Bool.false_eq_true, if_false]
  have hoff : ({ doTraceTick [] 20 initTraceState (mkBlob c2lines) with
      jobPolls := (doTraceTick [] 20 initTraceState (mkBlob c2lines)).jobPolls + 1 }
      : TraceState).offset = 1001 := by
    rw [t1]
  have hpr : ({ doTraceTick [] 20 initTraceState (mkBlob c2lines) with
      jobPolls := (doTraceTick [] 20 initTraceState (mkBlob c2lines)).jobPolls + 1 }
      : TraceState).printed = List.replicate 19 ['a'] := by
    rw [t1]
    simp [initTraceState]
  rw [hoff, hpr] at st2
  have hdrop2 : ((c2lines ++ [['b'], ['c']]) ++ ([[]] : List (List Char))).drop 1001 =
      [['c'], []] := by
    rw [List.drop_append_of_le_length (by rw [List.length_append, hlen]; norm_num)]
    rw [show (1001 : Nat) = c2lines.length + 1 by rw [hlen], List.drop_append]
    simp
  rw [hdrop2] at st2
  have hmap2 : ([['c'], []] : List (List Char)).map (fun l => replaceArtifact ([] ++ l)) =
      [['c'], []] := by decide
  rw [hmap2] at st2
  refine ⟨?_, ?_, ?_, ?_⟩
  · rw [run1]
    show ({ doTraceTick [] 20 initTraceState (mkBlob c2lines) with
      jobPolls := (doTraceTick [] 20 initTraceState (mkBlob c2lines)).jobPolls + 1 }
      : TraceState).printed = _
    rw [t1]
    simp [initTraceState]
  · rw [run1]
    show (({ doTraceTick [] 20 initTraceState (mkBlob c2lines) with
      jobPolls := (doTraceTick [] 20 initTraceState (mkBlob c2lines)).jobPolls + 1 }
      : TraceState).printed).length = _
    rw [t1]
    simp [initTraceState]
  · rw [run2]
    show (doTraceTick [] 20 _ (mkBlob (c2lines ++ [['b'], ['c']]))).printed = _
    rw [st2]
  · rw [run2]
    show ['b'] ∉ (doTraceTick [] 20 _ (mkBlob (c2lines ++ [['b'], ['c']]))).printed
    rw [st2]
    simp only [List.mem_append, List.mem_replicate, List.mem_cons, List.not_mem_nil]
    decide

/-! ## Lemmas about the artifact regex -/

theorem filter_range_eq_cons (p : Nat → Bool) (m : Nat) (hpm : p m = true)
    (hlow : ∀ j, j < m → p j = false) :
    ∀ n, m < n → ∃ rest, (List.range n).filter p = m :: rest := by
  intro n
  induction n with
  | zero => omega
  | succ k ih =>
    intro hm
    rw [List.range_succ, List.filter_append]
    rcases Nat.lt_or_ge m k with hk | hk
    · obtain ⟨rest, hrest⟩ := ih hk
      rw [hrest]
      exact ⟨rest ++ List.filter p [k], rfl⟩
    · have hmk : m = k := by omega
      subst hmk
      have hnil : (List.range m).filter p = [] := by
        rw [List.filter_eq_nil_iff]
        intro j hj
        rw [List.mem_range] at hj
        simp [hlow j hj]
      rw [hnil]
      exact ⟨[], by simp [List.filter, hpm]⟩

theorem filter_range_getLast (p : Nat → Bool) (m : Nat) (hpm : p m = true) :
    ∀ n, m < n → (∀ j, m < j → j < n → p j = false) →
    ((List.range n).filter p).getLast? = some m := by
  intro n
  induction n with
  | zero => omega
  | succ k ih =>
    intro hm hhigh
    rw [List.range_succ, List.filter_append]
    rcases Nat.lt_or_ge m k with hk | hk
    · have hfk : p k = false := hhigh k hk (by omega)
      have h1 : List.filter p [k] = [] := by simp [List.filter, hfk]
      rw [h1, List.append_nil]
      exact ih hk (fun j hj hjk => hhigh j hj (by omega))
    · have hmk : m = k := by omega
      subst hmk
      have h1 : List.filter p [m] = [m] := by simp [List.filter, hpm]
      rw [h1, List.getLast?_concat]

/-- Two cons cells with different heads are different lists. -/
theorem cons_ne_cons_of_head_ne {x y : Char} {xs ys : List Char} (h : x ≠ y) :
    x :: xs ≠ y :: ys := by
  intro he
  exact h (List.cons.injEq x xs y ys ▸ he).1

theorem matchStarts_eq_nil_iff (pat l : List Char) :
    matchStarts pat l = [] ↔ ∀ j, j ≤ l.length → listStartsWith pat (l.drop j) = false := by
  rw [matchStarts, List.filter_eq_nil_iff]
  constructor
  · intro h j hj
    have := h j (List.mem_range.mpr (by omega))
    exact Bool.eq_false_iff.mpr this
  · intro h j hj
    rw [List.mem_range] at hj
    exact Bool.eq_false_iff.mp (h j (by omega))

/-- In `a ++ artifact ++ b` no occurrence of the reset pattern ESC`[0m`
starts strictly inside `a` when `a` itself contains none: the only way
would be a window crossing into `artifact`, whose first character is ESC
where the pattern would need `[`, `0` or `m`. -/
theorem startsWith_esc_false_of_lt (a b : List Char) (hA : matchStarts esc0m a = [])
    (i : Nat) (hi : i < a.length) :
    listStartsWith esc0m ((a ++ (artifact ++ b)).drop i) = false := by
  have hA' := (matchStarts_eq_nil_iff esc0m a).mp hA
  cases hcon : listStartsWith esc0m ((a ++ (artifact ++ b)).drop i) with
  | false => rfl
  | true =>
    exfalso
    obtain ⟨t, ht⟩ := (listStartsWith_iff _ _).mp hcon
    rw [List.drop_append_of_le_length (Nat.le_of_lt hi)] at ht
    rcases List.append_eq_append_iff.mp ht with ⟨c, hc1, hc2⟩ | ⟨c, hc1, hc2⟩
    · have hlc : 4 = (a.length - i) + c.length := by
        have hl := congrArg List.length hc1
        simp only [esc0m, List.length_append, List.length_drop, List.length_cons,
          List.length_nil] at hl
        omega
      rcases Nat.lt_or_ge (a.length - i) 4 with hk | hk
      · have hck : c = esc0m.drop (a.length - i) := by
          have hd := congrArg (List.drop (a.length - i)) hc1
          rw [List.drop_left' (by rw [List.length_drop])] at hd
          exact hd.symm
        have h1k : 1 ≤ a.length - i := by omega
        set k := a.length - i with hkdef
        interval_cases k
        · rw [show esc0m.drop 1 = ['[', '0', 'm'] from rfl] at hck
          subst hck
          simp only [artifact, esc0m, clr0K, List.cons_append, List.nil_append,
            List.append_assoc] at hc2
          exact cons_ne_cons_of_head_ne (by decide) hc2
        · rw [show esc0m.drop 2 = ['0', 'm'] from rfl] at hck
          subst hck
          simp only [artifact, esc0m, clr0K, List.cons_append, List.nil_append,
            List.append_assoc] at hc2
          exact cons_ne_cons_of_head_ne (by decide) hc2
        · rw [show esc0m.drop 3 = ['m'] from rfl] at hck
          subst hck
          simp only [artifact, esc0m, clr0K, List.cons_append, List.nil_append,
            List.append_assoc] at hc2
          exact cons_ne_cons_of_head_ne (by decide) hc2
      · have hc0 : c = [] := List.eq_nil_of_length_eq_zero (by omega)
        subst hc0
        rw [List.append_nil] at hc1
        have : listStartsWith esc0m (a.drop i) = true :=
          (listStartsWith_iff _ _).mpr ⟨[], by rw [← hc1, List.append_nil]⟩
        rw [hA' i (Nat.le_of_lt hi)] at this
        exact Bool.false_ne_true this
    · have : listStartsWith esc0m (a.drop i) = true :=
        (listStartsWith_iff _ _).mpr ⟨c, hc1⟩
      rw [hA' i (Nat.le_of_lt hi)] at this
      exact Bool.false_ne_true this

/-- In `a ++ artifact ++ b` no occurrence of the clear-line pattern `[0K`
starts after the artifact's own one (at `a.length + 5`) when `b`
contains none: positions `a.length+6`, `a.length+7` land on `0K…` and
`K…`, and later positions are inside `b`. -/
theorem startsWith_clr_false_of_gt (a b : List Char) (hB : matchStarts clr0K b = [])
    (q : Nat) (hq : a.length + 5 < q) :
    listStartsWith clr0K ((a ++ (artifact ++ b)).drop q) = false := by
  have hB' := (matchStarts_eq_nil_iff clr0K b).mp hB
  cases hcon : listStartsWith clr0K ((a ++ (artifact ++ b)).drop q) with
  | false => rfl
  | true =>
    exfalso
    obtain ⟨t, ht⟩ := (listStartsWith_iff _ _).mp hcon
    simp only [clr0K, List.cons_append, List.nil_append] at ht
    rcases show q = a.length + 6 ∨ q = a.length + 7 ∨ a.length + 8 ≤ q by omega
      with hc | hc | hc
    · subst hc
      have hd : (a ++ (artifact ++ b)).drop (a.length + 6) = '0' :: 'K' :: b := by
        rw [List.drop_append]
        simp [artifact, esc0m, clr0K]
      rw [hd] at ht
      exact cons_ne_cons_of_head_ne (by decide) ht
    · subst hc
      have hd : (a ++ (artifact ++ b)).drop (a.length + 7) = 'K' :: b := by
        rw [List.drop_append]
        simp [artifact, esc0m, clr0K]
      rw [hd] at ht
      exact cons_ne_cons_of_head_ne (by decide) ht
    · have hd : (a ++ (artifact ++ b)).drop q = b.drop (q - a.length - 8) := by
        conv_lhs =>
          rw [show a ++ (artifact ++ b) = (a ++ artifact) ++ b from
            (List.append_assoc _ _ _).symm]
          rw [show q = (a ++ artifact).length + (q - a.length - 8) by
            simp only [List.length_append, artifact, esc0m, clr0K, List.length_cons,
              List.length_nil]
            omega]
        rw [List.drop_append]
      rw [hd] at ht
      rcases le_or_lt (q - a.length - 8) b.length with hj | hj
      · have hfalse := hB' _ hj
        have : listStartsWith clr0K (b.drop (q - a.length - 8)) = true :=
          (listStartsWith_iff _ _).mpr ⟨t, by simpa [clr0K] using ht⟩
        rw [hfalse] at this
        exact Bool.false_ne_true this
      · rw [List.drop_eq_nil_of_le (by omega)] at ht
        exact List.noConfusion ht

/-- **C8** (amended): the streamer prints each new line as
`re.ReplaceAllString(prefix+line, "")`, i.e. `replaceArtifact` of the
prefixed line.  For every such line of the form `a ++ artifact ++ b` —
the known escape-then-clear-line artifact with text `a` before and `b`
after — *provided* the reset pattern ESC`[0m` does not occur in `a` and
the clear-line pattern `[0K` does not occur in `b`, the unique greedy
match of the regex is exactly the artifact, and the line is printed with
the artifact removed and all remaining text intact.  (Without the
proviso the greedy `.*` removes the whole span from the first reset
sequence to the last clear-line sequence — see the counterexample.) -/
theorem replaceArtifact_append (a b : List Char)
    (hA : matchStarts esc0m a = []) (hB : matchStarts clr0K b = []) :
    replaceArtifact (a ++ artifact ++ b) = a ++ b := by
  have hassoc : a ++ artifact ++ b = a ++ (artifact ++ b) := List.append_assoc a artifact b
  have hlenL : (a ++ artifact ++ b).length = a.length + 8 + b.length := by
    simp [artifact, esc0m, clr0K, List.length_append]
    omega
  have hE1 : listStartsWith esc0m ((a ++ artifact ++ b).drop a.length) = true := by
    rw [hassoc, List.drop_left]
    refine (listStartsWith_iff _ _).mpr ⟨'\x1b' :: clr0K ++ b, ?_⟩
    simp [artifact, esc0m, clr0K]
  have hQ1 : listStartsWith clr0K ((a ++ artifact ++ b).drop (a.length + 5)) = true := by
    rw [hassoc, List.drop_append]
    refine (listStartsWith_iff _ _).mpr ⟨b, ?_⟩
    simp [artifact, esc0m, clr0K]
  have hq1mem : a.length + 5 ∈ matchStarts clr0K (a ++ artifact ++ b) := by
    rw [matchStarts, List.mem_filter, List.mem_range]
    exact ⟨by omega, hQ1⟩
  have hps : ∃ rest, matchStarts esc0m (a ++ artifact ++ b) = a.length :: rest := by
    refine filter_range_eq_cons _ a.length hE1 ?_ _ (by omega)
    intro j hj
    rw [hassoc]
    exact startsWith_esc_false_of_lt a b hA j hj
  obtain ⟨rest, hps⟩ := hps
  have hfind : (matchStarts esc0m (a ++ artifact ++ b)).find?
      (fun p => (matchStarts clr0K (a ++ artifact ++ b)).any (fun q => p + 4 ≤ q)) =
      some a.length := by
    rw [hps]
    refine List.find?_cons_of_pos _ ?_
    refine List.any_eq_true.mpr ⟨a.length + 5, hq1mem, ?_⟩
    simp
  have hQ15 : listStartsWith clr0K ((artifact ++ b).drop 5) = true :=
    (listStartsWith_iff _ _).mpr ⟨b, by simp [artifact, esc0m, clr0K]⟩
  have hlast : ((matchStarts clr0K (a ++ artifact ++ b)).filter
      (fun q => a.length + 4 ≤ q)).getLast? = some (a.length + 5) := by
    rw [matchStarts, List.filter_filter]
    refine filter_range_getLast _ (a.length + 5) (by simp [hQ15]) _ (by omega) ?_
    intro j hj hjn
    simp [startsWith_clr_false_of_gt a b hB j hj]
  rw [replaceArtifact]
  simp only [hfind, hlast]
  have htake : (a ++ artifact ++ b).take a.length = a := by
    rw [hassoc]
    exact List.take_left' rfl
  have hdrop : (a ++ artifact ++ b).drop (a.length + 5 + 3) = b := by
    rw [show a.length + 5 + 3 = (a ++ artifact).length from by
      simp [artifact, esc0m, clr0K, List.length_append]]
    exact List.drop_left (a ++ artifact) b
  rw [htake, hdrop]

/-- Witness for **C8** (amended): a colored-prefix-free line with plain
text around one artifact. -/
theorem replaceArtifact_append_witness :
    matchStarts esc0m "[job] some text ".toList = [] ∧
    matchStarts clr0K " rest".toList = [] ∧
    replaceArtifact ("[job] some text ".toList ++ artifact ++ " rest".toList) =
      "[job] some text ".toList ++ " rest".toList :=
  ⟨by decide, by decide, replaceArtifact_append _ _ (by decide) (by decide)⟩

/-- **C8** (counterexample to the claim as stated): the raw line
`artifact ++ "A[0K"` contains the artifact pattern, but the streamer
prints it as the empty line, not as `"A[0K"` (the line with exactly the
artifact removed and the rest intact): the regex's greedy `.*` extends
the match to the *last* `[0K` of the line, deleting the `A` as well. -/
theorem replaceArtifact_greedy :
    replaceArtifact (artifact ++ 'A' :: clr0K) = [] ∧
    (doTraceTick [] 20 initTraceState (mkBlob [artifact ++ 'A' :: clr0K])).printed = [[]] ∧
    ([[]] : List (List Char)) ≠ ['A' :: clr0K] := by
  decide

end Lab
